import Mathlib

/-!
Verification of the cpu_capacity_mod kernel module (src/cpu_capacity_mod.c).

The module state (per-cpu `cpu_scale` table, saved-original snapshot and the
`capacities_buf` read-back buffer) is embedded as an explicit `State` record,
and every C function of the module is translated into a pure Lean function
threading that state.  Machine integers are modelled as `Nat` with explicit
bounds where the C code can overflow (`kstrtoul`/`kstrtouint` overflow
detection is modelled bit-faithfully, including the wrap-around modulo 2^64 of
`_parse_integer`).  Strings are modelled as `List Char` restricted to
NUL-free ASCII text, which is the domain sysfs hands to the module.

The environment (number of possible cpus and the possible-cpu mask) is a
parameter record `Env`, carrying the kernel invariants that the mask only
contains cpus below `nr_cpu_ids` and that `nr_cpu_ids` fits in an
`unsigned int`.

All recursion is structural (fuel-based where the C loop is not structural),
so every definition evaluates by kernel reduction on concrete inputs.
-/

namespace CpuCap

/-- Error codes returned by the module, mirroring the Linux errno values the
C code can produce (`-EINVAL`, `-ERANGE` from kstrto*, `-ENOMEM` from
kmalloc). -/
inductive Err where
  | EINVAL
  | ERANGE
  | ENOMEM
deriving DecidableEq

/-- Decidable equality of results, so concrete runs can be checked by
`decide`. -/
instance exceptDecidableEq {ε α : Type} [DecidableEq ε] [DecidableEq α] :
    DecidableEq (Except ε α) := fun a b =>
  match a, b with
  | .ok x, .ok y =>
    if h : x = y then isTrue (by rw [h]) else isFalse (fun hc => h (Except.ok.inj hc))
  | .error e, .error f =>
    if h : e = f then isTrue (by rw [h]) else isFalse (fun hc => h (Except.error.inj hc))
  | .ok _, .error _ => isFalse (fun hc => Except.noConfusion hc)
  | .error _, .ok _ => isFalse (fun hc => Except.noConfusion hc)

/-- SCHED_CAPACITY_SCALE from linux/sched.h. -/
def SCHED_CAPACITY_SCALE : Nat := 1024

/-- Size of the static read-back buffer `capacities_buf`. -/
def MAX_CAPACITIES_LEN : Nat := 256

/-- Largest value of the C type `unsigned int` (32-bit). -/
def UINT_MAX : Nat := 4294967295

/-- Largest value of the C type `unsigned long long` (64-bit, and on the
64-bit kernels this module targets also `unsigned long`). -/
def ULLONG_MAX : Nat := 18446744073709551615

/-- One beyond `ULLONG_MAX`; `_parse_integer` accumulates modulo this. -/
def U64MOD : Nat := 18446744073709551616

/-- Kernel ctype `isspace`: space and the five control characters 9..13. -/
def isspace (c : Char) : Bool :=
  decide (c.toNat = 32 ∨ (9 ≤ c.toNat ∧ c.toNat ≤ 13))

/-- Kernel ctype `isxdigit`: 0-9, a-f, A-F. -/
def isxdigit (c : Char) : Bool :=
  decide ((48 ≤ c.toNat ∧ c.toNat ≤ 57) ∨ (97 ≤ c.toNat ∧ c.toNat ≤ 102) ∨
    (65 ≤ c.toNat ∧ c.toNat ≤ 70))

/-- Decimal digit test, used on the specification side of rendered inputs. -/
def isDigit10 (c : Char) : Bool :=
  decide (48 ≤ c.toNat ∧ c.toNat ≤ 57)

/-- The digit value a character denotes for `_parse_integer`: `'0'..'9'`
directly, and after OR-ing with 0x20 (the kernel's cheap tolower) the
letters a..f; `none` when the character is not a digit at all. -/
def digitVal (c : Char) : Option Nat :=
  if 48 ≤ c.toNat ∧ c.toNat ≤ 57 then some (c.toNat - 48)
  else if 97 ≤ c.toNat ||| 32 ∧ c.toNat ||| 32 ≤ 102 then
    some (c.toNat ||| 32 - 97 + 10)
  else none

/-- Decimal digit to character, used to render concrete spec strings. -/
def digitChar (d : Nat) : Char :=
  match d with
  | 0 => '0'
  | 1 => '1'
  | 2 => '2'
  | 3 => '3'
  | 4 => '4'
  | 5 => '5'
  | 6 => '6'
  | 7 => '7'
  | 8 => '8'
  | 9 => '9'
  | _ => '*'

/-- Model of the kernel `_parse_integer` loop from lib/kstrtox.c: consume
digit characters valid in `base`, accumulating `res * base + val` modulo
2^64, flag overflow exactly when the C code does, and return the
accumulated value, the number of characters consumed, the overflow flag
and the unconsumed remainder of the string. -/
def parseIntegerAux (base : Nat) : List Char → Nat → Nat → Bool →
    Nat × Nat × Bool × List Char
  | [], res, rv, ov => (res, rv, ov, [])
  | c :: cs, res, rv, ov =>
    match digitVal c with
    | none => (res, rv, ov, c :: cs)
    | some val =>
      if base ≤ val then (res, rv, ov, c :: cs)
      else
        parseIntegerAux base cs ((res * base + val) % U64MOD) (rv + 1)
          (ov || decide (1152921504606846976 ≤ res ∧ (ULLONG_MAX - val) / base < res))

/-- Model of `_parse_integer_fixup_radix` for the `base = 0` calls the module
makes: a leading `0x`/`0X` followed by a hex digit selects base 16 (skipping
the two characters), a bare leading `0` selects base 8, anything else
base 10. -/
def fixupRadix (s : List Char) : Nat × List Char :=
  match s with
  | [] => (10, [])
  | c0 :: rest =>
    if c0 = '0' then
      match rest with
      | c1 :: c2 :: t =>
        if (c1 = 'x' ∨ c1 = 'X') ∧ isxdigit c2 then (16, c2 :: t)
        else (8, c0 :: rest)
      | _ => (8, c0 :: rest)
    else (10, c0 :: rest)

/-- Model of `_kstrtoull`: radix fixup, digit parsing, overflow check, then
the tail must be empty up to one optional trailing newline. -/
def kstrtoullInner (s : List Char) : Except Err Nat :=
  match fixupRadix s with
  | (base, s1) =>
    match parseIntegerAux base s1 0 0 false with
    | (res, rv, ov, rest) =>
      if ov then .error .ERANGE
      else if rv = 0 then .error .EINVAL
      else
        match rest with
        | '\n' :: r => if r = [] then .ok res else .error .EINVAL
        | r => if r = [] then .ok res else .error .EINVAL

/-- Model of `kstrtoull`: skip a single leading `+` sign. -/
def kstrtoull (s : List Char) : Except Err Nat :=
  match s with
  | c :: r => if c = '+' then kstrtoullInner r else kstrtoullInner (c :: r)
  | [] => kstrtoullInner []

/-- Model of `kstrtoul` on a 64-bit kernel where `unsigned long` is 64 bits. -/
def kstrtoul (s : List Char) : Except Err Nat :=
  kstrtoull s

/-- Model of `kstrtouint`: parse as 64-bit, then range-check against
`UINT_MAX`. -/
def kstrtouint (s : List Char) : Except Err Nat :=
  match kstrtoull s with
  | .error e => .error e
  | .ok v => if UINT_MAX < v then .error .ERANGE else .ok v

/-- The fixed environment the module runs in: the `nr_cpu_ids` bound and the
possible-cpu mask, together with the kernel invariants that `nr_cpu_ids`
fits in `unsigned int` and that every possible cpu is below `nr_cpu_ids`. -/
structure Env where
  nr_cpu_ids : Nat
  cpu_possible : Nat → Bool
  nr_le : nr_cpu_ids ≤ UINT_MAX
  possible_lt : ∀ c, cpu_possible c = true → c < nr_cpu_ids

/-- The mutable state of the module: the per-cpu `cpu_scale` table, the
lazily allocated snapshot `original_capacities` (entries the copy loop never
touches are modelled as 0, standing for uninitialised memory), the
`original_saved` flag, and the `capacities_buf` read-back buffer. -/
structure State where
  cpu_scale : Nat → Nat
  original_capacities : Option (Nat → Nat)
  original_saved : Bool
  capacities_buf : List Char

/-- A cpu index the module may write: inside the table and possible. -/
def validCpu (env : Env) (c : Nat) : Prop :=
  c < env.nr_cpu_ids ∧ env.cpu_possible c = true

/-- Decidability of `validCpu`, so it can appear in `if` conditions of
characterization statements. -/
instance validCpuDecidable (env : Env) (c : Nat) : Decidable (validCpu env c) :=
  inferInstanceAs (Decidable (c < env.nr_cpu_ids ∧ env.cpu_possible c = true))

/-- The list of cpus `for_each_possible_cpu` iterates over. -/
def possibleList (env : Env) : List Nat :=
  (List.range env.nr_cpu_ids).filter env.cpu_possible

/-- A copy loop over a list of indices: after the loop, destination holds
`src` at every listed index and is unchanged elsewhere. -/
def copyOn (l : List Nat) (src dst : Nat → Nat) : Nat → Nat :=
  match l with
  | [] => dst
  | c :: t => copyOn t src (fun x => if x = c then src c else dst x)

/-- The snapshot entry for cpu `c`, when a snapshot exists. -/
def snapshotVal (st : State) (c : Nat) : Option Nat :=
  Option.map (fun f => f c) st.original_capacities

/-- The state at module load: table as the environment provides it, no
snapshot, empty read-back buffer. -/
def initState (scale : Nat → Nat) : State :=
  { cpu_scale := scale, original_capacities := none, original_saved := false,
    capacities_buf := [] }

/-- Model of `save_original_capacities`: a no-op once `original_saved` holds,
otherwise allocate the snapshot (allocation is modelled as always
succeeding, so the `-ENOMEM` branch is unreachable in the model), copy the
table at every possible cpu, and set the flag. -/
def save_original_capacities (env : Env) (st : State) : Except Err Unit × State :=
  if st.original_saved then (.ok (), st)
  else
    (.ok (), { st with
      original_capacities := some (copyOn (possibleList env) st.cpu_scale (fun _ => 0)),
      original_saved := true })

/-- Model of `restore_original_capacities`: if the flag holds and the
snapshot exists, copy it back at every possible cpu, free it and clear the
flag; otherwise do nothing. -/
def restore_original_capacities (env : Env) (st : State) : State :=
  match st.original_saved, st.original_capacities with
  | true, some orig =>
    { st with
      cpu_scale := copyOn (possibleList env) orig st.cpu_scale,
      original_capacities := none,
      original_saved := false }
  | _, _ => st

/-- Model of `set_cpu_capacity`: reject a cpu outside the table or not
possible, reject a capacity above `SCHED_CAPACITY_SCALE`, otherwise write
the per-cpu table entry. -/
def set_cpu_capacity (env : Env) (st : State) (cpu capacity : Nat) :
    Except Err Unit × State :=
  if env.nr_cpu_ids ≤ cpu ∨ env.cpu_possible cpu = false then (.error .EINVAL, st)
  else if SCHED_CAPACITY_SCALE < capacity then (.error .EINVAL, st)
  else (.ok (), { st with
    cpu_scale := fun c => if c = cpu then capacity else st.cpu_scale c })

/-- The `for (cpu = cpu_start; cpu <= cpu_end; cpu++)` application loop of
`parse_capacity_spec`, with explicit fuel (the caller passes
`cpu_end + 1 - cpu_start`, exactly the iteration count; the loop in C
cannot wrap because `set_cpu_capacity` fails at `nr_cpu_ids ≤ UINT_MAX`
before `cpu` could overflow). -/
def applyRangeAux (env : Env) (capacity : Nat) :
    Nat → Nat → Nat → State → Except Err Unit × State
  | 0, _, _, st => (.ok (), st)
  | fuel + 1, cpu, cpu_end, st =>
    if cpu_end < cpu then (.ok (), st)
    else
      match set_cpu_capacity env st cpu capacity with
      | (.error e, st1) => (.error e, st1)
      | (.ok _, st1) => applyRangeAux env capacity fuel (cpu + 1) cpu_end st1

/-- Apply `capacity` to every cpu in `[cpu_start, cpu_end]`, stopping at the
first failure (lines 185-190 of the C file). -/
def applyRange (env : Env) (capacity cpu_start cpu_end : Nat) (st : State) :
    Except Err Unit × State :=
  applyRangeAux env capacity (cpu_end + 1 - cpu_start) cpu_start cpu_end st

/-- Split a character list at the first occurrence of `ch` (the effect of
`strchr` plus overwriting the found character with NUL). -/
def splitFirst (ch : Char) : List Char → Option (List Char × List Char)
  | [] => none
  | c :: t =>
    if c = ch then some ([], t)
    else
      match splitFirst ch t with
      | none => none
      | some (a, b) => some (c :: a, b)

/-- Model of `parse_capacity_spec`: length check against the 64-byte local
buffer, split at the first `:`, parse the capacity with `kstrtoul`, split
the left part at the first `-` into a range (or treat it as a single cpu),
parse the cpu numbers with `kstrtouint`, reject inverted ranges, then apply. -/
def parse_capacity_spec (env : Env) (st : State) (spec : List Char) :
    Except Err Unit × State :=
  if 64 ≤ spec.length then (.error .EINVAL, st)
  else
    match splitFirst ':' spec with
    | none => (.error .EINVAL, st)
    | some (left, valstr) =>
      match kstrtoul valstr with
      | .error e => (.error e, st)
      | .ok capacity =>
        match splitFirst '-' left with
        | some (s1, s2) =>
          match kstrtouint s1 with
          | .error e => (.error e, st)
          | .ok cpu_start =>
            match kstrtouint s2 with
            | .error e => (.error e, st)
            | .ok cpu_end =>
              if cpu_end < cpu_start then (.error .EINVAL, st)
              else applyRange env capacity cpu_start cpu_end st
        | none =>
          match kstrtouint left with
          | .error e => (.error e, st)
          | .ok cpu_start => applyRange env capacity cpu_start cpu_start st

/-- Skip leading kernel whitespace. -/
def skipWs : List Char → List Char
  | [] => []
  | c :: t => if isspace c then skipWs t else c :: t

/-- Drop trailing kernel whitespace (the `while (end > p && isspace ...)`
loop). -/
def trimTrailingWs (l : List Char) : List Char :=
  (skipWs l.reverse).reverse

/-- The comma-separated iteration of `parse_capacities` (lines 219-241),
with fuel; the caller passes the length of the remaining input, which
bounds the iteration count since every round consumes at least one
character.  Each round takes the text up to the next comma, trims its
trailing whitespace, parses and applies it unless it is empty, and
continues after the comma with leading whitespace skipped. -/
def parseLoopAux (env : Env) : Nat → State → List Char → Except Err Unit × State
  | 0, st, _ => (.ok (), st)
  | fuel + 1, st, p =>
    match p with
    | [] => (.ok (), st)
    | c :: t =>
      let spec0 := (c :: t).takeWhile (fun x => x ≠ ',')
      let spec := trimTrailingWs spec0
      match (if spec.isEmpty then (.ok (), st) else parse_capacity_spec env st spec :
          Except Err Unit × State) with
      | (.error e, st1) => (.error e, st1)
      | (.ok _, st1) =>
        if spec0.length = (c :: t).length then (.ok (), st1)
        else parseLoopAux env fuel st1 (skipWs ((c :: t).drop (spec0.length + 1)))

/-- Model of `parse_capacities`: skip leading whitespace, accept the empty
string as a no-op, save the original capacities before the first
modification, then run the comma-separated loop. -/
def parse_capacities (env : Env) (st : State) (s : List Char) :
    Except Err Unit × State :=
  match skipWs s with
  | [] => (.ok (), st)
  | c :: t =>
    match save_original_capacities env st with
    | (.error e, st1) => (.error e, st1)
    | (.ok _, st1) => parseLoopAux env (c :: t).length st1 (c :: t)

/-- The stored length computed by `capacities_set` lines 266-272: clamp to
`MAX_CAPACITIES_LEN - 1`, then drop one trailing newline. -/
def stripLen (v : List Char) : Nat :=
  let len := min v.length (MAX_CAPACITIES_LEN - 1)
  if 0 < len ∧ v.getD (len - 1) ' ' = '\n' then len - 1 else len

/-- Model of `capacities_set`: reject a NULL value, parse (and apply) the
configuration, and only on full success record the clamped,
newline-stripped raw text in `capacities_buf`. -/
def capacities_set (env : Env) (st : State) (val : Option (List Char)) :
    Except Err Unit × State :=
  match val with
  | none => (.error .EINVAL, st)
  | some v =>
    match parse_capacities env st v with
    | (.error e, st1) => (.error e, st1)
    | (.ok _, st1) => (.ok (), { st1 with capacities_buf := v.take (stripLen v) })

/-- PAGE_SIZE of the sysfs buffer `capacities_get` prints into. -/
def PAGE_SIZE : Nat := 4096

/-- Model of `capacities_get`: `scnprintf(buf, PAGE_SIZE, "%s\n", ...)`,
i.e. the stored text followed by one newline, truncated to
`PAGE_SIZE - 1` characters. -/
def capacities_get (st : State) : List Char :=
  List.take (PAGE_SIZE - 1) (st.capacities_buf ++ ['\n'])

/-- Run a sequence of `capacities_set` calls, threading the state. -/
def runSets (env : Env) (st : State) : List (List Char) → State
  | [] => st
  | v :: vs => runSets env (capacities_set env st (some v)).2 vs

/-- Whether every call in a sequence of `capacities_set` calls succeeds. -/
def runSetsOk (env : Env) (st : State) : List (List Char) → Bool
  | [] => true
  | v :: vs =>
    match capacities_set env st (some v) with
    | (.ok _, st1) => runSetsOk env st1 vs
    | (.error _, _) => false

/-- Drop one trailing newline of a character list, if present. -/
def stripNl (l : List Char) : List Char :=
  if l.getLast? = some '\n' then l.dropLast else l

/-- The canonical stored form of a raw write: clamped to the buffer size,
one trailing newline removed. -/
def canonicalOf (v : List Char) : List Char :=
  stripNl (v.take (MAX_CAPACITIES_LEN - 1))

/-- Decimal rendering of a natural number, fuelled (any fuel above the digit
count works; `renderNat` passes `n + 1`). -/
def renderNatAux : Nat → Nat → List Char → List Char
  | 0, _, acc => acc
  | fuel + 1, n, acc =>
    if n < 10 then digitChar n :: acc
    else renderNatAux fuel (n / 10) (digitChar (n % 10) :: acc)

/-- Decimal rendering of a natural number. -/
def renderNat (n : Nat) : List Char :=
  renderNatAux (n + 1) n []

/-- The spec text `start-end:value`. -/
def renderRange (s e v : Nat) : List Char :=
  renderNat s ++ '-' :: (renderNat e ++ ':' :: renderNat v)

/-- The spec text `index:value`. -/
def renderSingle (i v : Nat) : List Char :=
  renderNat i ++ ':' :: renderNat v

/-- One step of decimal digit accumulation, the specification-side value of
the `_parse_integer` loop on decimal digit characters. -/
def digStep (a : Nat) (c : Char) : Nat :=
  a * 10 + (c.toNat - 48)

/-- The state invariant tying a reachable state to the pristine state `st0`
it started from: cpus the module can never write still hold their pristine
value, and either no snapshot was ever taken and the whole table is
pristine, or the snapshot holds the pristine value of every possible cpu. -/
def Inv (env : Env) (st0 st : State) : Prop :=
  (∀ c, ¬ validCpu env c → st.cpu_scale c = st0.cpu_scale c) ∧
  ((st.original_saved = false ∧ st.original_capacities = none ∧
      ∀ c, st.cpu_scale c = st0.cpu_scale c) ∨
    (st.original_saved = true ∧ ∃ f, st.original_capacities = some f ∧
      ∀ c, validCpu env c → f c = st0.cpu_scale c))

/-- What the parsing/application path preserves: the snapshot fields and the
read-back buffer are untouched, and cpus the module can never write keep
their value. -/
def FrameOK (env : Env) (st st' : State) : Prop :=
  st'.original_capacities = st.original_capacities ∧
  st'.original_saved = st.original_saved ∧
  st'.capacities_buf = st.capacities_buf ∧
  ∀ c, ¬ validCpu env c → st'.cpu_scale c = st.cpu_scale c

/-- An 8-cpu environment with a dense possible mask. -/
def env8 : Env :=
  { nr_cpu_ids := 8
    cpu_possible := fun c => decide (c < 8)
    nr_le := by decide
    possible_lt := fun c h => of_decide_eq_true h }

/-- An 8-cpu environment whose possible mask is sparse: cpu 3 is a hole. -/
def envSparse : Env :=
  { nr_cpu_ids := 8
    cpu_possible := fun c => decide (c < 8 ∧ c ≠ 3)
    nr_le := by decide
    possible_lt := fun c h => (of_decide_eq_true h).1 }

/-- A pristine start state: every cpu at capacity 1024, nothing saved. -/
def st0 : State :=
  initState (fun _ => 1024)

/-- A batch whose second spec is malformed. -/
def c1in : List Char :=
  "0:100,xyz".toList

/-- A one-call sequence for exercising snapshot and restore. -/
def c2vals : List (List Char) :=
  ["0:100".toList]

/-- A range reaching beyond the 8-cpu table. -/
def c5in : List Char :=
  "6-9:100".toList

/-- A whitespace-only input that is not the empty string. -/
def c8in : List Char :=
  " ".toList

/-- A parseable configuration longer than the 256-byte read-back buffer. -/
def c7in : List Char :=
  List.flatten (List.replicate 64 ("0:1,".toList))

/-- A value above SCHED_CAPACITY_SCALE. -/
def c9inVal : List Char :=
  "0:2000".toList

/-- A spec with no colon separator. -/
def c9inSep : List Char :=
  "0100".toList

/-- A cpu index beyond the 8-cpu table. -/
def c9inIdx : List Char :=
  "9:100".toList

/-- A capacity literal that overflows 64 bits. -/
def c9inOvf : List Char :=
  "0:18446744073709551616".toList

/-! ### Basic list and character lemmas -/

theorem skipWs_length_le (l : List Char) : (skipWs l).length ≤ l.length := by
  induction l with
  | nil => simp [skipWs]
  | cons c t ih =>
    simp only [skipWs]
    split
    · exact Nat.le_trans ih (Nat.le_succ _)
    · exact Nat.le_refl _

theorem skipWs_of_not_ws {l : List Char} (h : ∀ c ∈ l, isspace c = false) :
    skipWs l = l := by
  cases l with
  | nil => rfl
  | cons c t =>
    simp only [skipWs, h c (List.mem_cons_self c t)]
    simp

theorem skipWs_of_all_ws {l : List Char} (h : ∀ c ∈ l, isspace c = true) :
    skipWs l = [] := by
  induction l with
  | nil => rfl
  | cons c t ih =>
    simp only [skipWs, h c (List.mem_cons_self c t)]
    simp only [if_true]
    exact ih (fun x hx => h x (List.mem_cons_of_mem c hx))

theorem takeWhile_all {l : List Char} {p : Char → Bool} (h : ∀ c ∈ l, p c = true) :
    l.takeWhile p = l := by
  induction l with
  | nil => rfl
  | cons c t ih =>
    simp only [List.takeWhile_cons, h c (List.mem_cons_self c t)]
    simp only [if_true, List.cons.injEq, true_and]
    exact ih (fun x hx => h x (List.mem_cons_of_mem c hx))

theorem trimTrailingWs_of_not_ws {l : List Char} (h : ∀ c ∈ l, isspace c = false) :
    trimTrailingWs l = l := by
  unfold trimTrailingWs
  rw [skipWs_of_not_ws (fun c hc => h c (List.mem_reverse.mp hc))]
  exact List.reverse_reverse l

theorem splitFirst_not_mem {ch : Char} {l : List Char} (h : ch ∉ l) :
    splitFirst ch l = none := by
  induction l with
  | nil => rfl
  | cons c t ih =>
    have hc : ¬ (c = ch) := fun hc => h (by simp [hc])
    simp only [splitFirst, if_neg hc,
      ih (fun hm => h (List.mem_cons_of_mem c hm))]

theorem splitFirst_append {ch : Char} {a b : List Char} (h : ch ∉ a) :
    splitFirst ch (a ++ ch :: b) = some (a, b) := by
  induction a with
  | nil => simp [splitFirst]
  | cons c t ih =>
    have hc : ¬ (c = ch) := fun hc => h (by simp [hc])
    simp only [List.cons_append, splitFirst, if_neg hc, List.append_eq,
      ih (fun hm => h (List.mem_cons_of_mem c hm))]

theorem copyOn_eval (l : List Nat) (src dst : Nat → Nat) (x : Nat) :
    copyOn l src dst x = if x ∈ l then src x else dst x := by
  induction l generalizing dst with
  | nil => simp [copyOn]
  | cons c t ih =>
    simp only [copyOn, ih]
    by_cases hxt : x ∈ t
    · simp [hxt, List.mem_cons]
    · by_cases hxc : x = c
      · simp [hxt, hxc]
      · simp [hxt, hxc, List.mem_cons]

theorem mem_possibleList {env : Env} {c : Nat} :
    c ∈ possibleList env ↔ validCpu env c := by
  unfold possibleList validCpu
  rw [List.mem_filter, List.mem_range]

/-! ### Decimal rendering and kstrto* correctness on rendered numbers -/

theorem digitChar_isDigit {d : Nat} (h : d < 10) : isDigit10 (digitChar d) = true := by
  interval_cases d <;> decide

theorem digitChar_toNat {d : Nat} (h : d < 10) : (digitChar d).toNat - 48 = d := by
  interval_cases d <;> decide

theorem digitChar_ne_zero {d : Nat} (h1 : 1 ≤ d) (h2 : d ≤ 9) : digitChar d ≠ '0' := by
  interval_cases d <;> decide

theorem digitChar_ne_plus {d : Nat} (h : d < 10) : digitChar d ≠ '+' := by
  interval_cases d <;> decide

theorem isDigit10_bounds {c : Char} (h : isDigit10 c = true) :
    48 ≤ c.toNat ∧ c.toNat ≤ 57 :=
  of_decide_eq_true h

theorem isDigit10_not_ws {c : Char} (h : isDigit10 c = true) : isspace c = false := by
  have hb := isDigit10_bounds h
  apply decide_eq_false
  omega

theorem isDigit10_ne {c : Char} (h : isDigit10 c = true) {x : Char}
    (hx : 58 ≤ x.toNat ∨ x.toNat ≤ 47) : c ≠ x := by
  have hb := isDigit10_bounds h
  intro he
  subst he
  omega

theorem digitVal_of_digit {c : Char} (h : isDigit10 c = true) :
    digitVal c = some (c.toNat - 48) := by
  have hb := isDigit10_bounds h
  unfold digitVal
  rw [if_pos hb]

theorem renderNatAux_append (fuel : Nat) : ∀ n acc,
    renderNatAux fuel n acc = renderNatAux fuel n [] ++ acc := by
  induction fuel with
  | zero => intro n acc; simp [renderNatAux]
  | succ fuel ih =>
    intro n acc
    simp only [renderNatAux]
    split
    · simp
    · rw [ih (n / 10) (digitChar (n % 10) :: acc), ih (n / 10) [digitChar (n % 10)]]
      simp

theorem renderNatAux_digits (fuel : Nat) : ∀ n acc,
    (∀ c ∈ acc, isDigit10 c = true) →
    ∀ c ∈ renderNatAux fuel n acc, isDigit10 c = true := by
  induction fuel with
  | zero => intro n acc hacc; simpa [renderNatAux] using hacc
  | succ fuel ih =>
    intro n acc hacc
    simp only [renderNatAux]
    split
    · intro c hc
      rcases List.mem_cons.mp hc with h | h
      · subst h; exact digitChar_isDigit (by omega)
      · exact hacc c h
    · refine ih (n / 10) _ (fun c hc => ?_)
      rcases List.mem_cons.mp hc with h | h
      · subst h; exact digitChar_isDigit (Nat.mod_lt n (by norm_num))
      · exact hacc c h

theorem renderNat_digits (n : Nat) : ∀ c ∈ renderNat n, isDigit10 c = true :=
  renderNatAux_digits (n + 1) n [] (by simp)

theorem renderNatAux_ne_nil (fuel : Nat) : ∀ n acc, 1 ≤ fuel ∨ acc ≠ [] →
    renderNatAux fuel n acc ≠ [] := by
  induction fuel with
  | zero =>
    intro n acc h
    rcases h with h | h
    · omega
    · simpa [renderNatAux] using h
  | succ fuel ih =>
    intro n acc _
    simp only [renderNatAux]
    split
    · simp
    · exact ih (n / 10) _ (Or.inr (by simp))

theorem renderNat_ne_nil (n : Nat) : renderNat n ≠ [] :=
  renderNatAux_ne_nil (n + 1) n [] (Or.inl (by omega))

theorem renderNatAux_head (fuel : Nat) : ∀ n, 1 ≤ n → n < 10 ^ fuel →
    ∃ d t, renderNatAux fuel n [] = digitChar d :: t ∧ 1 ≤ d ∧ d ≤ 9 := by
  induction fuel with
  | zero =>
    intro n h1 h2
    norm_num at h2
    omega
  | succ fuel ih =>
    intro n h1 h2
    by_cases hn : n < 10
    · exact ⟨n, [], by simp [renderNatAux, hn], h1, by omega⟩
    · have hq1 : 1 ≤ n / 10 := (Nat.le_div_iff_mul_le (by norm_num)).mpr (by omega)
      have hq2 : n / 10 < 10 ^ fuel := by
        rw [Nat.div_lt_iff_lt_mul (by norm_num)]
        calc n < 10 ^ (fuel + 1) := h2
          _ = 10 ^ fuel * 10 := by ring
      obtain ⟨d, t, heq, hd1, hd9⟩ := ih (n / 10) hq1 hq2
      refine ⟨d, t ++ [digitChar (n % 10)], ?_, hd1, hd9⟩
      simp only [renderNatAux, if_neg hn]
      rw [renderNatAux_append, heq]
      simp

theorem renderNatAux_length (fuel : Nat) : ∀ n k acc, 1 ≤ k → n < 10 ^ k →
    (renderNatAux fuel n acc).length ≤ k + acc.length := by
  induction fuel with
  | zero =>
    intro n k acc _ _
    simp only [renderNatAux]
    omega
  | succ fuel ih =>
    intro n k acc hk hn
    by_cases h10 : n < 10
    · simp only [renderNatAux, if_pos h10, List.length_cons]
      omega
    · have hk2 : 2 ≤ k := by
        rcases Nat.lt_or_ge k 2 with hc | hc
        · have hk1 : k = 1 := by omega
          subst hk1
          norm_num at hn
          omega
        · exact hc
      have hq : n / 10 < 10 ^ (k - 1) := by
        rw [Nat.div_lt_iff_lt_mul (by norm_num)]
        have hp : 10 ^ (k - 1) * 10 = 10 ^ k := by
          rw [← pow_succ]
          congr 1
          omega
        omega
      simp only [renderNatAux, if_neg h10]
      have := ih (n / 10) (k - 1) (digitChar (n % 10) :: acc) (by omega) hq
      simp only [List.length_cons] at this
      omega

theorem renderNat_length_le {n k : Nat} (hk : 1 ≤ k) (hn : n < 10 ^ k) :
    (renderNat n).length ≤ k := by
  simpa using renderNatAux_length (n + 1) n k [] hk hn

theorem renderNat_foldl (fuel : Nat) : ∀ n, n < 10 ^ fuel → ∀ a0,
    List.foldl digStep a0 (renderNatAux fuel n []) =
      a0 * 10 ^ (renderNatAux fuel n []).length + n := by
  induction fuel with
  | zero =>
    intro n hn a0
    norm_num at hn
    simp [renderNatAux, hn]
  | succ fuel ih =>
    intro n hn a0
    by_cases h10 : n < 10
    · simp only [renderNatAux, if_pos h10, List.foldl_cons, List.foldl_nil,
        List.length_cons, List.length_nil]
      unfold digStep
      rw [digitChar_toNat h10]
      ring
    · have hq : n / 10 < 10 ^ fuel := by
        rw [Nat.div_lt_iff_lt_mul (by norm_num)]
        calc n < 10 ^ (fuel + 1) := hn
          _ = 10 ^ fuel * 10 := by ring
      simp only [renderNatAux, if_neg h10]
      rw [renderNatAux_append]
      rw [List.foldl_append, List.length_append]
      rw [ih (n / 10) hq a0]
      simp only [List.foldl_cons, List.foldl_nil, List.length_cons, List.length_nil]
      unfold digStep
      rw [digitChar_toNat (Nat.mod_lt n (by norm_num))]
      rw [pow_succ]
      have hdm : 10 * (n / 10) + n % 10 = n := Nat.div_add_mod n 10
      linarith

theorem foldl_digStep_le (l : List Char) : ∀ a, a ≤ List.foldl digStep a l := by
  induction l with
  | nil => intro a; simp
  | cons c t ih =>
    intro a
    have h1 : a ≤ digStep a c := by
      unfold digStep
      have : a * 1 ≤ a * 10 := Nat.mul_le_mul_left a (by norm_num)
      omega
    simpa using Nat.le_trans h1 (ih (digStep a c))

theorem parseIntegerAux_digits (l : List Char) : ∀ a rv,
    (∀ c ∈ l, isDigit10 c = true) →
    List.foldl digStep a l < U64MOD →
    parseIntegerAux 10 l a rv false = (List.foldl digStep a l, rv + l.length, false, []) := by
  induction l with
  | nil => intro a rv _ _; simp [parseIntegerAux]
  | cons c t ih =>
    intro a rv hd hlt
    have hc := hd c (List.mem_cons_self c t)
    have hb := isDigit10_bounds hc
    have hv10 : c.toNat - 48 < 10 := by omega
    simp only [parseIntegerAux, digitVal_of_digit hc]
    rw [if_neg (by omega : ¬ 10 ≤ c.toNat - 48)]
    have hfoldc : List.foldl digStep a (c :: t) = List.foldl digStep (digStep a c) t := by
      simp
    have hstep : digStep a c < U64MOD := by
      refine Nat.lt_of_le_of_lt (foldl_digStep_le t (digStep a c)) ?_
      rw [← hfoldc]
      exact hlt
    have hstep2 : digStep a c ≤ ULLONG_MAX := by
      have : U64MOD = ULLONG_MAX + 1 := by norm_num [U64MOD, ULLONG_MAX]
      omega
    have hflag :
        decide (1152921504606846976 ≤ a ∧ (ULLONG_MAX - (c.toNat - 48)) / 10 < a) = false := by
      apply decide_eq_false
      rintro ⟨_, hdiv⟩
      have hmul : a * 10 ≤ ULLONG_MAX - (c.toNat - 48) := by
        unfold digStep at hstep2
        omega
      have : a ≤ (ULLONG_MAX - (c.toNat - 48)) / 10 :=
        (Nat.le_div_iff_mul_le (by norm_num)).mpr hmul
      omega
    rw [hflag]
    have hmod : (a * 10 + (c.toNat - 48)) % U64MOD = a * 10 + (c.toNat - 48) :=
      Nat.mod_eq_of_lt hstep
    simp only [Bool.or_false]
    rw [hmod]
    have ht := ih (digStep a c) (rv + 1) (fun x hx => hd x (List.mem_cons_of_mem c hx))
      (by rw [← hfoldc]; exact hlt)
    unfold digStep at ht
    rw [ht]
    rw [hfoldc]
    unfold digStep
    simp only [List.length_cons]
    have harith : rv + 1 + t.length = rv + (t.length + 1) := by omega
    rw [harith]

theorem kstrtoull_renderNat {n : Nat} (hn : n < U64MOD) :
    kstrtoull (renderNat n) = .ok n := by
  rcases Nat.eq_zero_or_pos n with h0 | hpos
  · subst h0; decide
  · have hpow : n < 10 ^ n := Nat.lt_pow_self (by norm_num) n
    have hfuel : n < 10 ^ (n + 1) := by
      refine Nat.lt_of_lt_of_le hpow ?_
      exact Nat.pow_le_pow_right (by norm_num) (Nat.le_succ n)
    obtain ⟨d, t, heq, hd1, hd9⟩ := renderNatAux_head (n + 1) n hpos hfuel
    have hdig : ∀ c ∈ renderNat n, isDigit10 c = true := renderNat_digits n
    have hfold : List.foldl digStep 0 (renderNat n) = n := by
      unfold renderNat
      rw [renderNat_foldl (n + 1) n hfuel 0]
      simp
    unfold renderNat at hdig hfold
    rw [heq] at hdig hfold
    unfold renderNat
    rw [heq]
    simp only [kstrtoull]
    rw [if_neg (digitChar_ne_plus (by omega))]
    unfold kstrtoullInner
    simp only [fixupRadix, if_neg (digitChar_ne_zero hd1 hd9)]
    rw [parseIntegerAux_digits (digitChar d :: t) 0 0 hdig (by rw [hfold]; exact hn)]
    rw [hfold]
    simp

theorem kstrtoul_renderNat {n : Nat} (hn : n < U64MOD) :
    kstrtoul (renderNat n) = .ok n :=
  kstrtoull_renderNat hn

theorem kstrtouint_renderNat {n : Nat} (hn : n ≤ UINT_MAX) :
    kstrtouint (renderNat n) = .ok n := by
  have hlt : n < U64MOD := by
    have h : UINT_MAX < U64MOD := by norm_num [UINT_MAX, U64MOD]
    omega
  unfold kstrtouint
  rw [kstrtoull_renderNat hlt]
  simp [Nat.not_lt.mpr hn]

/-! ### Properties of set_cpu_capacity and the application loop -/

theorem not_validCpu_iff (env : Env) (cpu : Nat) :
    (env.nr_cpu_ids ≤ cpu ∨ env.cpu_possible cpu = false) ↔ ¬ validCpu env cpu := by
  unfold validCpu
  constructor
  · rintro (h | h) ⟨h1, h2⟩
    · omega
    · rw [h2] at h
      exact Bool.noConfusion h
  · intro h
    by_cases h1 : cpu < env.nr_cpu_ids
    · right
      cases hb : env.cpu_possible cpu
      · rfl
      · exact absurd ⟨h1, hb⟩ h
    · left
      omega

theorem set_cpu_capacity_fst (env : Env) (st : State) (cpu cap : Nat) :
    (set_cpu_capacity env st cpu cap).1 =
      if validCpu env cpu ∧ cap ≤ SCHED_CAPACITY_SCALE then .ok () else .error .EINVAL := by
  unfold set_cpu_capacity
  split
  · next h =>
    rw [if_neg]
    rintro ⟨hv, _⟩
    exact (not_validCpu_iff env cpu).mp h hv
  · next h =>
    have hv : validCpu env cpu := by
      by_contra hc
      exact h ((not_validCpu_iff env cpu).mpr hc)
    split
    · next hcap =>
      rw [if_neg]
      rintro ⟨_, hle⟩
      exact absurd hle (Nat.not_le.mpr hcap)
    · next hcap =>
      rw [if_pos ⟨hv, Nat.not_lt.mp hcap⟩]

theorem set_cpu_capacity_snd (env : Env) (st : State) (cpu cap : Nat) :
    ((set_cpu_capacity env st cpu cap).2).original_capacities = st.original_capacities ∧
    ((set_cpu_capacity env st cpu cap).2).original_saved = st.original_saved ∧
    ((set_cpu_capacity env st cpu cap).2).capacities_buf = st.capacities_buf ∧
    ∀ c, ((set_cpu_capacity env st cpu cap).2).cpu_scale c =
      if c = cpu ∧ validCpu env cpu ∧ cap ≤ SCHED_CAPACITY_SCALE then cap
      else st.cpu_scale c := by
  unfold set_cpu_capacity
  split
  · next h =>
    refine ⟨rfl, rfl, rfl, fun c => ?_⟩
    rw [if_neg]
    rintro ⟨_, hv, _⟩
    exact (not_validCpu_iff env cpu).mp h hv
  · next h =>
    have hv : validCpu env cpu := by
      by_contra hc
      exact h ((not_validCpu_iff env cpu).mpr hc)
    split
    · next hcap =>
      refine ⟨rfl, rfl, rfl, fun c => ?_⟩
      rw [if_neg]
      rintro ⟨_, _, hle⟩
      exact absurd hle (Nat.not_le.mpr hcap)
    · next hcap =>
      refine ⟨rfl, rfl, rfl, fun c => ?_⟩
      by_cases hc : c = cpu
      · rw [if_pos ⟨hc, hv, Nat.not_lt.mp hcap⟩]
        simp [hc]
      · rw [if_neg (fun hx => hc hx.1)]
        simp [hc]

theorem applyRangeAux_frame (env : Env) (cap ce : Nat) : ∀ fuel cpu st,
    (((applyRangeAux env cap fuel cpu ce st).2).original_capacities =
        st.original_capacities ∧
      ((applyRangeAux env cap fuel cpu ce st).2).original_saved = st.original_saved ∧
      ((applyRangeAux env cap fuel cpu ce st).2).capacities_buf = st.capacities_buf) := by
  intro fuel
  induction fuel with
  | zero => intro cpu st; exact ⟨rfl, rfl, rfl⟩
  | succ fuel ih =>
    intro cpu st
    simp only [applyRangeAux]
    split
    · exact ⟨rfl, rfl, rfl⟩
    · rcases hsc : set_cpu_capacity env st cpu cap with ⟨r, st1⟩
      have hfr := set_cpu_capacity_snd env st cpu cap
      rw [hsc] at hfr
      obtain ⟨h1, h2, h3, _⟩ := hfr
      cases r
      · exact ⟨h1, h2, h3⟩
      · obtain ⟨g1, g2, g3⟩ := ih (cpu + 1) st1
        exact ⟨g1.trans h1, g2.trans h2, g3.trans h3⟩

theorem applyRangeAux_scale (env : Env) (cap ce : Nat) : ∀ fuel cpu st,
    ce + 1 - cpu ≤ fuel → ∀ c,
    ((applyRangeAux env cap fuel cpu ce st).2).cpu_scale c =
      if cpu ≤ c ∧ c ≤ ce ∧ cap ≤ SCHED_CAPACITY_SCALE ∧
          (∀ j, cpu ≤ j → j ≤ c → validCpu env j) then cap
      else st.cpu_scale c := by
  intro fuel
  induction fuel with
  | zero =>
    intro cpu st hf c
    simp only [applyRangeAux]
    rw [if_neg]
    rintro ⟨h1, h2, _, _⟩
    omega
  | succ fuel ih =>
    intro cpu st hf c
    simp only [applyRangeAux]
    split
    · next hlt =>
      rw [if_neg]
      rintro ⟨h1, h2, _, _⟩
      omega
    · next hlt =>
      have hce : cpu ≤ ce := by omega
      rcases hsc : set_cpu_capacity env st cpu cap with ⟨r, st1⟩
      have hfr := set_cpu_capacity_snd env st cpu cap
      have hfst := set_cpu_capacity_fst env st cpu cap
      rw [hsc] at hfr hfst
      obtain ⟨-, -, -, hscale⟩ := hfr
      cases r with
      | error e =>
        have hnot : ¬ (validCpu env cpu ∧ cap ≤ SCHED_CAPACITY_SCALE) := by
          intro hx
          rw [if_pos hx] at hfst
          exact Except.noConfusion hfst
        have hnotc : ¬ (cpu ≤ c ∧ c ≤ ce ∧ cap ≤ SCHED_CAPACITY_SCALE ∧
            ∀ j, cpu ≤ j → j ≤ c → validCpu env j) := by
          rintro ⟨h1, h2, h3, h4⟩
          exact hnot ⟨h4 cpu (Nat.le_refl cpu) h1, h3⟩
        rw [if_neg hnotc]
        show st1.cpu_scale c = st.cpu_scale c
        rw [hscale c, if_neg (fun hx => hnot hx.2)]
      | ok u =>
        have hyes : validCpu env cpu ∧ cap ≤ SCHED_CAPACITY_SCALE := by
          by_contra hx
          rw [if_neg hx] at hfst
          exact Except.noConfusion hfst
        show ((applyRangeAux env cap fuel (cpu + 1) ce st1).2).cpu_scale c =
          if cpu ≤ c ∧ c ≤ ce ∧ cap ≤ SCHED_CAPACITY_SCALE ∧
              (∀ j, cpu ≤ j → j ≤ c → validCpu env j) then cap
          else st.cpu_scale c
        rw [ih (cpu + 1) st1 (by omega) c]
        by_cases hcc : c = cpu
        · have hn1 : ¬ (cpu + 1 ≤ c ∧ c ≤ ce ∧ cap ≤ SCHED_CAPACITY_SCALE ∧
              ∀ j, cpu + 1 ≤ j → j ≤ c → validCpu env j) := by
            rintro ⟨h1, _, _, _⟩
            omega
          rw [if_neg hn1, hscale c]
          rw [if_pos (show c = cpu ∧ validCpu env cpu ∧ cap ≤ SCHED_CAPACITY_SCALE from
            ⟨hcc, hyes.1, hyes.2⟩)]
          rw [if_pos (show cpu ≤ c ∧ c ≤ ce ∧ cap ≤ SCHED_CAPACITY_SCALE ∧
              (∀ j, cpu ≤ j → j ≤ c → validCpu env j) from
            ⟨by omega, by omega, hyes.2, fun j hj1 hj2 => by
              have hj : j = cpu := by omega
              rw [hj]
              exact hyes.1⟩)]
        · have hiff : (cpu + 1 ≤ c ∧ c ≤ ce ∧ cap ≤ SCHED_CAPACITY_SCALE ∧
                ∀ j, cpu + 1 ≤ j → j ≤ c → validCpu env j) ↔
                (cpu ≤ c ∧ c ≤ ce ∧ cap ≤ SCHED_CAPACITY_SCALE ∧
                ∀ j, cpu ≤ j → j ≤ c → validCpu env j) := by
            constructor
            · rintro ⟨h1, h2, h3, h4⟩
              refine ⟨by omega, h2, h3, fun j hj1 hj2 => ?_⟩
              by_cases hj : j = cpu
              · rw [hj]
                exact hyes.1
              · exact h4 j (by omega) hj2
            · rintro ⟨h1, h2, h3, h4⟩
              exact ⟨by omega, h2, h3, fun j hj1 hj2 => h4 j (by omega) hj2⟩
          rw [if_congr hiff rfl rfl, hscale c,
            if_neg (show ¬ (c = cpu ∧ validCpu env cpu ∧ cap ≤ SCHED_CAPACITY_SCALE) from
              fun hx => hcc hx.1)]

theorem applyRangeAux_fst (env : Env) (cap ce : Nat) : ∀ fuel cpu st,
    ce + 1 - cpu ≤ fuel →
    (((applyRangeAux env cap fuel cpu ce st).1 = .ok ()) ↔
      (ce < cpu ∨ (cap ≤ SCHED_CAPACITY_SCALE ∧
        ∀ j, cpu ≤ j → j ≤ ce → validCpu env j))) := by
  intro fuel
  induction fuel with
  | zero =>
    intro cpu st hf
    simp only [applyRangeAux]
    constructor
    · intro _
      left
      omega
    · intro _
      trivial
  | succ fuel ih =>
    intro cpu st hf
    simp only [applyRangeAux]
    split
    · next hlt =>
      constructor
      · intro _
        left
        exact hlt
      · intro _
        trivial
    · next hlt =>
      have hce : cpu ≤ ce := by omega
      rcases hsc : set_cpu_capacity env st cpu cap with ⟨r, st1⟩
      have hfst := set_cpu_capacity_fst env st cpu cap
      rw [hsc] at hfst
      cases r with
      | error e =>
        have hnot : ¬ (validCpu env cpu ∧ cap ≤ SCHED_CAPACITY_SCALE) := by
          intro hx
          rw [if_pos hx] at hfst
          exact Except.noConfusion hfst
        show (Except.error e = Except.ok ()) ↔ _
        constructor
        · intro hx
          exact Except.noConfusion hx
        · rintro (hx | ⟨h3, h4⟩)
          · omega
          · exact absurd ⟨h4 cpu (Nat.le_refl cpu) hce, h3⟩ hnot
      | ok u =>
        have hyes : validCpu env cpu ∧ cap ≤ SCHED_CAPACITY_SCALE := by
          by_contra hx
          rw [if_neg hx] at hfst
          exact Except.noConfusion hfst
        show ((applyRangeAux env cap fuel (cpu + 1) ce st1).1 = .ok ()) ↔ _
        rw [ih (cpu + 1) st1 (by omega)]
        constructor
        · rintro (hx | ⟨h3, h4⟩)
          · right
            refine ⟨hyes.2, fun j hj1 hj2 => ?_⟩
            have hj : j = cpu := by omega
            rw [hj]
            exact hyes.1
          · right
            refine ⟨h3, fun j hj1 hj2 => ?_⟩
            by_cases hj : j = cpu
            · rw [hj]
              exact hyes.1
            · exact h4 j (by omega) hj2
        · rintro (hx | ⟨h3, h4⟩)
          · omega
          · by_cases hend : ce < cpu + 1
            · left
              exact hend
            · right
              exact ⟨h3, fun j hj1 hj2 => h4 j (by omega) hj2⟩

theorem applyRangeAux_err (env : Env) (cap ce : Nat) : ∀ fuel cpu st,
    (applyRangeAux env cap fuel cpu ce st).1 = .ok () ∨
    (applyRangeAux env cap fuel cpu ce st).1 = .error .EINVAL := by
  intro fuel
  induction fuel with
  | zero => intro cpu st; left; rfl
  | succ fuel ih =>
    intro cpu st
    simp only [applyRangeAux]
    split
    · left
      rfl
    · rcases hsc : set_cpu_capacity env st cpu cap with ⟨r, st1⟩
      have hfst := set_cpu_capacity_fst env st cpu cap
      rw [hsc] at hfst
      cases r with
      | error e =>
        right
        show Except.error e = Except.error Err.EINVAL
        split at hfst
        · exact Except.noConfusion hfst
        · rw [Except.error.inj hfst]
      | ok u =>
        show (applyRangeAux env cap fuel (cpu + 1) ce st1).1 = .ok () ∨
          (applyRangeAux env cap fuel (cpu + 1) ce st1).1 = .error .EINVAL
        exact ih (cpu + 1) st1

theorem applyRange_overCap (env : Env) {cap : Nat} (cs ce : Nat) (st : State)
    (hcap : SCHED_CAPACITY_SCALE < cap) (hle : cs ≤ ce) :
    applyRange env cap cs ce st = (.error .EINVAL, st) := by
  have hsc : set_cpu_capacity env st cs cap = (.error .EINVAL, st) := by
    by_cases h1 : env.nr_cpu_ids ≤ cs ∨ env.cpu_possible cs = false
    · unfold set_cpu_capacity
      rw [if_pos h1]
    · unfold set_cpu_capacity
      rw [if_neg h1, if_pos hcap]
  unfold applyRange
  have hf : ce + 1 - cs = (ce - cs) + 1 := by omega
  rw [hf]
  simp only [applyRangeAux]
  rw [if_neg (by omega : ¬ ce < cs), hsc]

/-! ### Frame lemmas for the parsing and application path -/

theorem FrameOK_refl (env : Env) (st : State) : FrameOK env st st :=
  ⟨rfl, rfl, rfl, fun _ _ => rfl⟩

theorem FrameOK_trans {env : Env} {a b c : State} (h1 : FrameOK env a b)
    (h2 : FrameOK env b c) : FrameOK env a c :=
  ⟨h2.1.trans h1.1, h2.2.1.trans h1.2.1, h2.2.2.1.trans h1.2.2.1,
    fun x hx => (h2.2.2.2 x hx).trans (h1.2.2.2 x hx)⟩

theorem applyRange_FrameOK (env : Env) (cap cs ce : Nat) (st : State) :
    FrameOK env st ((applyRange env cap cs ce st).2) := by
  obtain ⟨h1, h2, h3⟩ := applyRangeAux_frame env cap ce (ce + 1 - cs) cs st
  refine ⟨h1, h2, h3, fun c hc => ?_⟩
  unfold applyRange
  rw [applyRangeAux_scale env cap ce (ce + 1 - cs) cs st (Nat.le_refl _) c]
  rw [if_neg]
  rintro ⟨hx1, _, _, hx4⟩
  exact hc (hx4 c hx1 (Nat.le_refl c))

theorem parse_capacity_spec_frame (env : Env) (st : State) (spec : List Char) :
    FrameOK env st ((parse_capacity_spec env st spec).2) := by
  unfold parse_capacity_spec
  split
  · exact FrameOK_refl env st
  · split
    · exact FrameOK_refl env st
    · split
      · exact FrameOK_refl env st
      · split
        · split
          · exact FrameOK_refl env st
          · split
            · exact FrameOK_refl env st
            · split
              · exact FrameOK_refl env st
              · exact applyRange_FrameOK env _ _ _ st
        · split
          · exact FrameOK_refl env st
          · exact applyRange_FrameOK env _ _ _ st

theorem parseLoopAux_frame (env : Env) : ∀ fuel p st,
    FrameOK env st ((parseLoopAux env fuel st p).2) := by
  intro fuel
  induction fuel with
  | zero => intro p st; exact FrameOK_refl env st
  | succ fuel ih =>
    intro p st
    cases p with
    | nil => exact FrameOK_refl env st
    | cons c t =>
      simp only [parseLoopAux]
      by_cases hemp : (trimTrailingWs ((c :: t).takeWhile fun x => x ≠ ',')).isEmpty = true
      · rw [if_pos hemp]
        split
        · next e st1 heq =>
          exact absurd (congrArg Prod.fst heq) (fun hx => Except.noConfusion hx)
        · next u st1 heq =>
          have hst : st = st1 := congrArg Prod.snd heq
          rw [← hst]
          split
          · exact FrameOK_refl env st
          · exact ih _ st
      · rw [if_neg hemp]
        split
        · next e st1 heq =>
          have h := parse_capacity_spec_frame env st
            (trimTrailingWs ((c :: t).takeWhile fun x => x ≠ ','))
          rw [heq] at h
          exact h
        · next u st1 heq =>
          have h := parse_capacity_spec_frame env st
            (trimTrailingWs ((c :: t).takeWhile fun x => x ≠ ','))
          rw [heq] at h
          split
          · exact h
          · exact FrameOK_trans h (ih _ st1)

theorem save_original_fst (env : Env) (st : State) :
    (save_original_capacities env st).1 = .ok () := by
  unfold save_original_capacities
  split
  · rfl
  · rfl

theorem save_original_saved_true {env : Env} {st : State}
    (h : st.original_saved = true) : save_original_capacities env st = (.ok (), st) := by
  unfold save_original_capacities
  rw [if_pos h]

theorem save_original_saved_false {env : Env} {st : State}
    (h : st.original_saved = false) : save_original_capacities env st = (.ok (), { st with
      original_capacities := some (copyOn (possibleList env) st.cpu_scale (fun _ => 0)),
      original_saved := true }) := by
  unfold save_original_capacities
  rw [if_neg (by rw [h]; exact Bool.false_ne_true)]

theorem save_original_snd_fields (env : Env) (st : State) :
    ((save_original_capacities env st).2).cpu_scale = st.cpu_scale ∧
    ((save_original_capacities env st).2).capacities_buf = st.capacities_buf := by
  unfold save_original_capacities
  split
  · exact ⟨rfl, rfl⟩
  · exact ⟨rfl, rfl⟩

theorem parse_capacities_empty (env : Env) (st : State) {s : List Char}
    (h : skipWs s = []) : parse_capacities env st s = (.ok (), st) := by
  unfold parse_capacities
  rw [h]

theorem parse_capacities_nonempty (env : Env) (st : State) {s : List Char} {c : Char}
    {t : List Char} (h : skipWs s = c :: t) :
    parse_capacities env st s =
      parseLoopAux env (c :: t).length ((save_original_capacities env st).2) (c :: t) := by
  unfold parse_capacities
  rw [h]
  rcases hs : save_original_capacities env st with ⟨r, st1⟩
  have hok := save_original_fst env st
  rw [hs] at hok
  cases r with
  | error e => exact absurd hok (fun hx => Except.noConfusion hx)
  | ok u => rfl

theorem parse_capacities_buf (env : Env) (st : State) (s : List Char) :
    ((parse_capacities env st s).2).capacities_buf = st.capacities_buf := by
  cases hw : skipWs s with
  | nil => rw [parse_capacities_empty env st hw]
  | cons c t =>
    rw [parse_capacities_nonempty env st hw]
    have h1 := (parseLoopAux_frame env (c :: t).length (c :: t)
      ((save_original_capacities env st).2)).2.2.1
    rw [h1]
    exact (save_original_snd_fields env st).2

theorem capacities_set_err {env : Env} {st : State} {v : List Char} {e : Err}
    {st1 : State} (hp : parse_capacities env st v = (.error e, st1)) :
    capacities_set env st (some v) = (.error e, st1) := by
  simp only [capacities_set]
  rw [hp]

theorem capacities_set_ok {env : Env} {st : State} {v : List Char} {st1 : State}
    (hp : parse_capacities env st v = (.ok (), st1)) :
    capacities_set env st (some v) =
      (.ok (), { st1 with capacities_buf := v.take (stripLen v) }) := by
  simp only [capacities_set]
  rw [hp]


/-! ### Running a single rendered spec through the pipeline -/

theorem parseLoopAux_single {env : Env} {st : State} {l : List Char} (hne : l ≠ [])
    (hnc : ',' ∉ l) (hnw : ∀ x ∈ l, isspace x = false) {fuel : Nat}
    (hfuel : 1 ≤ fuel) :
    parseLoopAux env fuel st l = parse_capacity_spec env st l := by
  cases fuel with
  | zero => omega
  | succ fuel =>
    cases l with
    | nil => exact absurd rfl hne
    | cons c t =>
      simp only [parseLoopAux]
      have htw : (c :: t).takeWhile (fun x => x ≠ ',') = c :: t :=
        takeWhile_all (fun x hx => decide_eq_true (fun he => hnc (he ▸ hx)))
      rw [htw, trimTrailingWs_of_not_ws hnw]
      rw [if_neg (by simp : ¬ ((c :: t).isEmpty = true))]
      split
      · next e st1 heq => rw [heq]
      · next u st1 heq =>
        rw [if_pos rfl, heq]

theorem renderRange_chars {s e v : Nat} : ∀ x ∈ renderRange s e v,
    isDigit10 x = true ∨ x = '-' ∨ x = ':' := by
  intro x hx
  unfold renderRange at hx
  rcases List.mem_append.mp hx with h | h
  · exact Or.inl (renderNat_digits s x h)
  · rcases List.mem_cons.mp h with h1 | h1
    · exact Or.inr (Or.inl h1)
    · rcases List.mem_append.mp h1 with h2 | h2
      · exact Or.inl (renderNat_digits e x h2)
      · rcases List.mem_cons.mp h2 with h3 | h3
        · exact Or.inr (Or.inr h3)
        · exact Or.inl (renderNat_digits v x h3)

theorem renderSingle_chars {i v : Nat} : ∀ x ∈ renderSingle i v,
    isDigit10 x = true ∨ x = ':' := by
  intro x hx
  unfold renderSingle at hx
  rcases List.mem_append.mp hx with h | h
  · exact Or.inl (renderNat_digits i x h)
  · rcases List.mem_cons.mp h with h1 | h1
    · exact Or.inr h1
    · exact Or.inl (renderNat_digits v x h1)

theorem renderRange_not_ws {s e v : Nat} : ∀ x ∈ renderRange s e v,
    isspace x = false := by
  intro x hx
  rcases renderRange_chars x hx with h | h | h
  · exact isDigit10_not_ws h
  · rw [h]; decide
  · rw [h]; decide

theorem renderSingle_not_ws {i v : Nat} : ∀ x ∈ renderSingle i v,
    isspace x = false := by
  intro x hx
  rcases renderSingle_chars x hx with h | h
  · exact isDigit10_not_ws h
  · rw [h]; decide

theorem renderRange_no_comma {s e v : Nat} : ',' ∉ renderRange s e v := by
  intro hx
  rcases renderRange_chars ',' hx with h | h | h
  · exact absurd h (by decide)
  · exact absurd h (by decide)
  · exact absurd h (by decide)

theorem renderSingle_no_comma {i v : Nat} : ',' ∉ renderSingle i v := by
  intro hx
  rcases renderSingle_chars ',' hx with h | h
  · exact absurd h (by decide)
  · exact absurd h (by decide)

theorem renderRange_ne_nil {s e v : Nat} : renderRange s e v ≠ [] := by
  intro h
  unfold renderRange at h
  exact List.cons_ne_nil '-' _ (List.append_eq_nil.mp h).2

theorem renderSingle_ne_nil {i v : Nat} : renderSingle i v ≠ [] := by
  intro h
  unfold renderSingle at h
  exact List.cons_ne_nil ':' _ (List.append_eq_nil.mp h).2

theorem uint_lt_pow10 {n : Nat} (h : n ≤ UINT_MAX) : n < 10 ^ 10 := by
  have : UINT_MAX < 10 ^ 10 := by norm_num [UINT_MAX]
  omega

theorem cap_lt_pow10 {n : Nat} (h : n ≤ SCHED_CAPACITY_SCALE) : n < 10 ^ 4 := by
  have : SCHED_CAPACITY_SCALE < 10 ^ 4 := by norm_num [SCHED_CAPACITY_SCALE]
  omega

theorem parse_capacity_spec_renderRange (env : Env) (st : State) {s e v : Nat}
    (hs : s ≤ UINT_MAX) (he : e ≤ UINT_MAX) (hv : v ≤ SCHED_CAPACITY_SCALE)
    (hle : s ≤ e) :
    parse_capacity_spec env st (renderRange s e v) = applyRange env v s e st := by
  have h1 : (renderNat s).length ≤ 10 := renderNat_length_le (by norm_num) (uint_lt_pow10 hs)
  have h2 : (renderNat e).length ≤ 10 := renderNat_length_le (by norm_num) (uint_lt_pow10 he)
  have h3 : (renderNat v).length ≤ 4 := renderNat_length_le (by norm_num) (cap_lt_pow10 hv)
  have hlen : (renderRange s e v).length < 64 := by
    unfold renderRange
    simp only [List.length_append, List.length_cons]
    omega
  have hsplit1 : splitFirst ':' (renderRange s e v) =
      some (renderNat s ++ '-' :: renderNat e, renderNat v) := by
    have hassoc : renderRange s e v =
        (renderNat s ++ '-' :: renderNat e) ++ ':' :: renderNat v := by
      unfold renderRange
      simp [List.append_assoc]
    rw [hassoc]
    apply splitFirst_append
    intro hmem
    rcases List.mem_append.mp hmem with h | h
    · exact absurd (renderNat_digits s ':' h) (by decide)
    · rcases List.mem_cons.mp h with h4 | h4
      · exact absurd h4 (by decide)
      · exact absurd (renderNat_digits e ':' h4) (by decide)
  have hsplit2 : splitFirst '-' (renderNat s ++ '-' :: renderNat e) =
      some (renderNat s, renderNat e) := by
    apply splitFirst_append
    intro hmem
    exact absurd (renderNat_digits s '-' hmem) (by decide)
  have hkv : kstrtoul (renderNat v) = .ok v := by
    apply kstrtoul_renderNat
    have : SCHED_CAPACITY_SCALE < U64MOD := by norm_num [SCHED_CAPACITY_SCALE, U64MOD]
    omega
  have hks : kstrtouint (renderNat s) = .ok s := kstrtouint_renderNat hs
  have hke : kstrtouint (renderNat e) = .ok e := kstrtouint_renderNat he
  unfold parse_capacity_spec
  rw [if_neg (by omega)]
  simp only [hsplit1, hkv, hsplit2, hks, hke]
  rw [if_neg (by omega : ¬ e < s)]

theorem parse_capacity_spec_renderSingle (env : Env) (st : State) {i v : Nat}
    (hi : i ≤ UINT_MAX) (hv : v ≤ SCHED_CAPACITY_SCALE) :
    parse_capacity_spec env st (renderSingle i v) = applyRange env v i i st := by
  have h1 : (renderNat i).length ≤ 10 := renderNat_length_le (by norm_num) (uint_lt_pow10 hi)
  have h3 : (renderNat v).length ≤ 4 := renderNat_length_le (by norm_num) (cap_lt_pow10 hv)
  have hlen : (renderSingle i v).length < 64 := by
    unfold renderSingle
    simp only [List.length_append, List.length_cons]
    omega
  have hsplit1 : splitFirst ':' (renderSingle i v) = some (renderNat i, renderNat v) := by
    unfold renderSingle
    apply splitFirst_append
    intro hmem
    exact absurd (renderNat_digits i ':' hmem) (by decide)
  have hsplit2 : splitFirst '-' (renderNat i) = none := by
    apply splitFirst_not_mem
    intro hmem
    exact absurd (renderNat_digits i '-' hmem) (by decide)
  have hkv : kstrtoul (renderNat v) = .ok v := by
    apply kstrtoul_renderNat
    have : SCHED_CAPACITY_SCALE < U64MOD := by norm_num [SCHED_CAPACITY_SCALE, U64MOD]
    omega
  have hki : kstrtouint (renderNat i) = .ok i := kstrtouint_renderNat hi
  unfold parse_capacity_spec
  rw [if_neg (by omega)]
  simp only [hsplit1, hkv, hsplit2, hki]

theorem parse_capacities_renderRange (env : Env) (st : State) {s e v : Nat}
    (hs : s ≤ UINT_MAX) (he : e ≤ UINT_MAX) (hv : v ≤ SCHED_CAPACITY_SCALE)
    (hle : s ≤ e) :
    parse_capacities env st (renderRange s e v) =
      applyRange env v s e ((save_original_capacities env st).2) := by
  have hskip : skipWs (renderRange s e v) = renderRange s e v :=
    skipWs_of_not_ws renderRange_not_ws
  have hcons : ∃ c t, renderRange s e v = c :: t := by
    cases hR : renderRange s e v with
    | nil => exact absurd hR renderRange_ne_nil
    | cons c t => exact ⟨c, t, rfl⟩
  obtain ⟨c, t, hR⟩ := hcons
  rw [parse_capacities_nonempty env st (show skipWs (renderRange s e v) = c :: t by
    rw [hskip, hR])]
  rw [← hR]
  rw [parseLoopAux_single renderRange_ne_nil renderRange_no_comma renderRange_not_ws
    (List.length_pos.mpr renderRange_ne_nil)]
  exact parse_capacity_spec_renderRange env _ hs he hv hle

theorem parse_capacities_renderSingle (env : Env) (st : State) {i v : Nat}
    (hi : i ≤ UINT_MAX) (hv : v ≤ SCHED_CAPACITY_SCALE) :
    parse_capacities env st (renderSingle i v) =
      applyRange env v i i ((save_original_capacities env st).2) := by
  have hskip : skipWs (renderSingle i v) = renderSingle i v :=
    skipWs_of_not_ws renderSingle_not_ws
  have hcons : ∃ c t, renderSingle i v = c :: t := by
    cases hR : renderSingle i v with
    | nil => exact absurd hR renderSingle_ne_nil
    | cons c t => exact ⟨c, t, rfl⟩
  obtain ⟨c, t, hR⟩ := hcons
  rw [parse_capacities_nonempty env st (show skipWs (renderSingle i v) = c :: t by
    rw [hskip, hR])]
  rw [← hR]
  rw [parseLoopAux_single renderSingle_ne_nil renderSingle_no_comma renderSingle_not_ws
    (List.length_pos.mpr renderSingle_ne_nil)]
  exact parse_capacity_spec_renderSingle env _ hi hv


/-! ### The reachable-state invariant and restore -/

theorem Inv_init {env : Env} {st0 : State} (h1 : st0.original_saved = false)
    (h2 : st0.original_capacities = none) : Inv env st0 st0 :=
  ⟨fun _ _ => rfl, Or.inl ⟨h1, h2, fun _ => rfl⟩⟩

theorem Inv_save (env : Env) (st0 st : State) (hinv : Inv env st0 st) :
    Inv env st0 ((save_original_capacities env st).2) ∧
    ((save_original_capacities env st).2).original_saved = true := by
  rcases hinv with ⟨hframe, hcase⟩
  rcases hcase with ⟨hs, ho, hall⟩ | ⟨hs, f, hf, hvals⟩
  · rw [save_original_saved_false hs]
    refine ⟨⟨hframe, Or.inr ⟨rfl,
      copyOn (possibleList env) st.cpu_scale (fun _ => 0), rfl, fun c hc => ?_⟩⟩, rfl⟩
    rw [copyOn_eval, if_pos (mem_possibleList.mpr hc)]
    exact hall c
  · rw [save_original_saved_true hs]
    exact ⟨⟨hframe, Or.inr ⟨hs, f, hf, hvals⟩⟩, hs⟩

theorem Inv_saved_FrameOK (env : Env) (st0 st st' : State) (hinv : Inv env st0 st)
    (hsaved : st.original_saved = true) (hfr : FrameOK env st st') :
    Inv env st0 st' ∧ st'.original_saved = true := by
  rcases hinv with ⟨hframe, hcase⟩
  rcases hcase with ⟨hs, _, _⟩ | ⟨hs, f, hf, hvals⟩
  · rw [hs] at hsaved
    exact Bool.noConfusion hsaved
  · exact ⟨⟨fun c hc => (hfr.2.2.2 c hc).trans (hframe c hc),
      Or.inr ⟨hfr.2.1.trans hs, f, hfr.1.trans hf, hvals⟩⟩, hfr.2.1.trans hs⟩

theorem Inv_capacities_set (env : Env) (st0 st : State) (v : Option (List Char))
    (hinv : Inv env st0 st) : Inv env st0 ((capacities_set env st v).2) := by
  cases v with
  | none => exact hinv
  | some s =>
    cases hw : skipWs s with
    | nil =>
      rw [capacities_set_ok (parse_capacities_empty env st hw)]
      exact hinv
    | cons c t =>
      obtain ⟨hinv1, hsaved1⟩ := Inv_save env st0 st hinv
      have hfr : FrameOK env ((save_original_capacities env st).2)
          ((parseLoopAux env (c :: t).length
            ((save_original_capacities env st).2) (c :: t)).2) :=
        parseLoopAux_frame env _ _ _
      obtain ⟨hinv2, -⟩ := Inv_saved_FrameOK env st0 _ _ hinv1 hsaved1 hfr
      rcases hq : parse_capacities env st s with ⟨r, st1⟩
      have hst1 : st1 = (parseLoopAux env (c :: t).length
          ((save_original_capacities env st).2) (c :: t)).2 := by
        rw [parse_capacities_nonempty env st hw] at hq
        exact (congrArg Prod.snd hq).symm
      cases r with
      | error e =>
        rw [capacities_set_err hq]
        show Inv env st0 st1
        rw [hst1]
        exact hinv2
      | ok u =>
        cases u
        rw [capacities_set_ok hq]
        show Inv env st0 { st1 with capacities_buf := s.take (stripLen s) }
        have h1 : Inv env st0 st1 := by
          rw [hst1]
          exact hinv2
        exact h1

theorem Inv_runSets (env : Env) (st0 : State) : ∀ vals st, Inv env st0 st →
    Inv env st0 (runSets env st vals) := by
  intro vals
  induction vals with
  | nil => intro st h; exact h
  | cons v vs ih =>
    intro st h
    exact ih _ (Inv_capacities_set env st0 st (some v) h)

theorem restore_noop {env : Env} {st : State}
    (h : st.original_saved = false ∨ st.original_capacities = none) :
    restore_original_capacities env st = st := by
  rcases st with ⟨sc, oc, os, bf⟩
  cases os with
  | false => rfl
  | true =>
    rcases h with h | h
    · exact Bool.noConfusion h
    · have hoc : oc = none := h
      subst hoc
      rfl

theorem restore_saved {env : Env} {st : State} {f : Nat → Nat}
    (hs : st.original_saved = true) (ho : st.original_capacities = some f) :
    restore_original_capacities env st = { st with
      cpu_scale := copyOn (possibleList env) f st.cpu_scale,
      original_capacities := none, original_saved := false } := by
  rcases st with ⟨sc, oc, os, bf⟩
  cases os with
  | false => exact Bool.noConfusion hs
  | true =>
    cases oc with
    | none => exact Option.noConfusion ho
    | some g =>
      have hg : g = f := Option.some.inj ho
      subst hg
      rfl

theorem restore_of_Inv (env : Env) (st0 st : State) (hinv : Inv env st0 st) :
    (∀ c, (restore_original_capacities env st).cpu_scale c = st0.cpu_scale c) ∧
    (restore_original_capacities env st).original_capacities = none ∧
    (restore_original_capacities env st).original_saved = false := by
  rcases hinv with ⟨hframe, hcase⟩
  rcases hcase with ⟨hs, ho, hall⟩ | ⟨hs, f, hf, hvals⟩
  · rw [restore_noop (Or.inl hs)]
    exact ⟨hall, ho, hs⟩
  · rw [restore_saved hs hf]
    refine ⟨fun c => ?_, rfl, rfl⟩
    show copyOn (possibleList env) f st.cpu_scale c = st0.cpu_scale c
    rw [copyOn_eval]
    by_cases hc : validCpu env c
    · rw [if_pos (mem_possibleList.mpr hc)]
      exact hvals c hc
    · rw [if_neg (fun hm => hc (mem_possibleList.mp hm))]
      exact hframe c hc

/-! ### The stored read-back buffer -/

theorem take_stripLen_eq (v : List Char) : v.take (stripLen v) = canonicalOf v := by
  unfold stripLen canonicalOf stripNl
  have h255 : MAX_CAPACITIES_LEN - 1 = 255 := by norm_num [MAX_CAPACITIES_LEN]
  rw [h255]
  have hlen : (v.take 255).length = min v.length 255 := by
    rw [List.length_take]
    omega
  by_cases h0 : 0 < min v.length 255
  · have hidx : min v.length 255 - 1 < 255 := by omega
    have hget : (v.take 255).getLast? = v[min v.length 255 - 1]? := by
      rw [List.getLast?_eq_getElem?, hlen, List.getElem?_take_of_lt hidx]
    have hgd : v.getD (min v.length 255 - 1) ' ' = (v[min v.length 255 - 1]?).getD ' ' :=
      List.getD_eq_getElem?_getD v _ ' '
    have hlt : min v.length 255 - 1 < v.length := by omega
    have hsome : v[min v.length 255 - 1]? =
        some (v.get ⟨min v.length 255 - 1, hlt⟩) :=
      List.getElem?_eq_getElem hlt
    by_cases hnl : v.get ⟨min v.length 255 - 1, hlt⟩ = '\n'
    · rw [if_pos ⟨h0, by rw [hgd, hsome, hnl]; rfl⟩]
      rw [if_pos (by rw [hget, hsome, hnl])]
      rw [List.dropLast_eq_take, hlen, List.take_take]
      congr 1
      omega
    · rw [if_neg (fun hx => hnl (by
        have := hx.2
        rw [hgd, hsome] at this
        exact this))]
      rw [if_neg (fun hx => hnl (by
        rw [hget, hsome] at hx
        exact Option.some.inj hx))]
      rcases Nat.lt_or_ge 255 v.length with hlt2 | hle
      · have hm : min v.length 255 = 255 := by omega
        rw [hm]
      · have hm : min v.length 255 = v.length := by omega
        rw [hm, List.take_length, List.take_of_length_le hle]
  · have hv : v = [] := by
      rcases Nat.eq_zero_of_not_pos h0 |> fun h => h with h
      have : v.length = 0 := by omega
      exact List.eq_nil_of_length_eq_zero this
    subst hv
    rfl

theorem canonicalOf_short {v : List Char} (h : v.length < MAX_CAPACITIES_LEN) :
    canonicalOf v = stripNl v := by
  unfold canonicalOf
  rw [List.take_of_length_le (by norm_num [MAX_CAPACITIES_LEN] at h ⊢; omega)]

theorem stripNl_length_le (l : List Char) : (stripNl l).length ≤ l.length := by
  unfold stripNl
  split
  · rw [List.dropLast_eq_take]
    rw [List.length_take]
    omega
  · exact Nat.le_refl _

theorem canonicalOf_length_le (v : List Char) :
    (canonicalOf v).length ≤ MAX_CAPACITIES_LEN - 1 := by
  unfold canonicalOf
  refine Nat.le_trans (stripNl_length_le _) ?_
  rw [List.length_take]
  omega

theorem capacities_get_eq (st : State)
    (h : st.capacities_buf.length ≤ MAX_CAPACITIES_LEN - 1) :
    capacities_get st = st.capacities_buf ++ ['\n'] := by
  unfold capacities_get
  apply List.take_of_length_le
  rw [List.length_append]
  norm_num [MAX_CAPACITIES_LEN, PAGE_SIZE] at h ⊢
  omega


/-! ### Shared helper for snapshot contents -/

theorem save_original_snapshotVal (env : Env) (st : State)
    (h : st.original_saved = false) : ∀ c, validCpu env c →
    snapshotVal ((save_original_capacities env st).2) c = some (st.cpu_scale c) := by
  intro c hc
  rw [save_original_saved_false h]
  show some (copyOn (possibleList env) st.cpu_scale (fun _ => 0) c) =
    some (st.cpu_scale c)
  rw [copyOn_eval, if_pos (mem_possibleList.mpr hc)]

/-! ### The claims -/

/-- Claim C1, as stated, is false: on the batch `"0:100,xyz"` the call fails
with `-EINVAL`, yet the assignment from the earlier well-formed spec `0:100`
has already been applied to the Current Table (cpu 0 moved from 1024
to 100). -/
theorem c1_counterexample :
    (capacities_set env8 st0 (some c1in)).1 = .error .EINVAL ∧
    ((capacities_set env8 st0 (some c1in)).2).cpu_scale 0 = 100 ∧
    st0.cpu_scale 0 = 1024 :=
  ⟨by decide, by decide, rfl⟩

/-- Claim C1 (amended): when parsing fails, `capacities_set` returns the
parse error unchanged and leaves the Canonical String untouched; the Current
Table, however, may already contain assignments committed by earlier
well-formed specs of the same batch. -/
theorem c1_parse_error_returned (env : Env) (st : State) (v : List Char) (e : Err)
    (hp : (parse_capacities env st v).1 = .error e) :
    capacities_set env st (some v) = (.error e, (parse_capacities env st v).2) ∧
    ((parse_capacities env st v).2).capacities_buf = st.capacities_buf := by
  rcases hq : parse_capacities env st v with ⟨r, st1⟩
  rw [hq] at hp
  have hr : r = .error e := hp
  subst hr
  refine ⟨capacities_set_err hq, ?_⟩
  have hb := parse_capacities_buf env st v
  rw [hq] at hb
  exact hb

/-- Witness for C1's amended theorem at the concrete failing batch. -/
theorem c1_witness :
    (parse_capacities env8 st0 c1in).1 = .error .EINVAL ∧
    ((parse_capacities env8 st0 c1in).2).capacities_buf = st0.capacities_buf :=
  ⟨by decide, (c1_parse_error_returned env8 st0 c1in .EINVAL (by decide)).2⟩

/-- Claim C2: after any sequence of successful `capacities_set` calls from a
pristine state, `restore_original_capacities` returns the Current Table to
its pre-sequence values, discards the Snapshot and clears the saved flag;
and with no Snapshot present restore is a silent no-op. -/
theorem c2_restore_correct :
    (∀ (env : Env) (s0 : State) (vals : List (List Char)),
      s0.original_saved = false → s0.original_capacities = none →
      runSetsOk env s0 vals = true →
      (∀ c, (restore_original_capacities env (runSets env s0 vals)).cpu_scale c =
        s0.cpu_scale c) ∧
      (restore_original_capacities env (runSets env s0 vals)).original_capacities =
        none ∧
      (restore_original_capacities env (runSets env s0 vals)).original_saved =
        false) ∧
    (∀ (env : Env) (st : State),
      st.original_saved = false ∨ st.original_capacities = none →
      restore_original_capacities env st = st) := by
  constructor
  · intro env s0 vals h1 h2 _
    exact restore_of_Inv env s0 _ (Inv_runSets env s0 vals s0 (Inv_init h1 h2))
  · intro env st h
    exact restore_noop h

/-- Witness for C2 on one successful call over the dense 8-cpu environment. -/
theorem c2_witness :
    runSetsOk env8 st0 c2vals = true ∧
    (restore_original_capacities env8 (runSets env8 st0 c2vals)).cpu_scale 0 =
      st0.cpu_scale 0 :=
  ⟨by decide, ((c2_restore_correct.1 env8 st0 c2vals rfl rfl (by decide)).1) 0⟩

/-- Claim C3: the Snapshot is captured at most once — a call with the saved
flag up is the identity returning success, the first call copies the Current
Table at every possible cpu and raises the flag, and after two successful
`capacities_set` calls from a pristine state the Snapshot (when captured)
still holds the pristine value of every possible cpu. -/
theorem c3_snapshot_once :
    (∀ (env : Env) (st : State), st.original_saved = true →
      save_original_capacities env st = (.ok (), st)) ∧
    (∀ (env : Env) (st : State), st.original_saved = false →
      (save_original_capacities env st).1 = .ok () ∧
      ((save_original_capacities env st).2).original_saved = true ∧
      ∀ c, validCpu env c →
        snapshotVal ((save_original_capacities env st).2) c = some (st.cpu_scale c)) ∧
    (∀ (env : Env) (s0 : State) (v1 v2 : List Char),
      s0.original_saved = false → s0.original_capacities = none →
      runSetsOk env s0 [v1, v2] = true →
      (runSets env s0 [v1, v2]).original_saved = true →
      ∀ c, validCpu env c →
        snapshotVal (runSets env s0 [v1, v2]) c = some (s0.cpu_scale c)) := by
  refine ⟨fun env st h => save_original_saved_true h, ?_, ?_⟩
  · intro env st h
    refine ⟨save_original_fst env st, ?_, save_original_snapshotVal env st h⟩
    rw [save_original_saved_false h]
  · intro env s0 v1 v2 h1 h2 hok hsaved c hc
    have hinv := Inv_runSets env s0 [v1, v2] s0 (Inv_init h1 h2)
    rcases hinv with ⟨-, hcase⟩
    rcases hcase with ⟨hs, -, -⟩ | ⟨-, f, hf, hvals⟩
    · rw [hs] at hsaved
      exact Bool.noConfusion hsaved
    · unfold snapshotVal
      rw [hf]
      show some (f c) = some (s0.cpu_scale c)
      rw [hvals c hc]

/-- Witness for C3 after the two successful calls `0:100` then `1:200`. -/
theorem c3_witness :
    runSetsOk env8 st0 ["0:100".toList, "1:200".toList] = true ∧
    snapshotVal (runSets env8 st0 ["0:100".toList, "1:200".toList]) 0 = some 1024 := by
  refine ⟨by decide, ?_⟩
  exact (c3_snapshot_once.2.2 env8 st0 ("0:100".toList) ("1:200".toList) rfl rfl
    (by decide) (by decide)) 0 (by constructor <;> decide)

/-- Claim C4: for a valid range `start ≤ end < N` and value ≤ MAX, a
successful `capacities_set "start-end:value"` writes the value at every
index of the range and leaves every index outside it unchanged. -/
theorem c4_range_set (env : Env) (st : State) (s e v : Nat)
    (hse : s ≤ e) (he : e < env.nr_cpu_ids) (hv : v ≤ SCHED_CAPACITY_SCALE)
    (hok : (capacities_set env st (some (renderRange s e v))).1 = .ok ()) :
    ∀ i, ((capacities_set env st (some (renderRange s e v))).2).cpu_scale i =
      if s ≤ i ∧ i ≤ e then v else st.cpu_scale i := by
  intro i
  have hs' : s ≤ UINT_MAX := by have := env.nr_le; omega
  have he' : e ≤ UINT_MAX := by have := env.nr_le; omega
  have hp := parse_capacities_renderRange env st hs' he' hv hse
  rcases hA : applyRange env v s e ((save_original_capacities env st).2) with ⟨r, st2⟩
  rw [hA] at hp
  cases r with
  | error e2 =>
    rw [capacities_set_err hp] at hok
    exact absurd hok (fun hx => Except.noConfusion hx)
  | ok u =>
    cases u
    rw [capacities_set_ok hp]
    show st2.cpu_scale i = _
    have hst2 : st2 = (applyRange env v s e ((save_original_capacities env st).2)).2 :=
      (congrArg Prod.snd hA).symm
    have hfst : (applyRange env v s e ((save_original_capacities env st).2)).1 =
        .ok () := by
      rw [hA]
    have hvalid := (applyRangeAux_fst env v e (e + 1 - s) s
      ((save_original_capacities env st).2) (Nat.le_refl _)).mp hfst
    have hall : ∀ j, s ≤ j → j ≤ e → validCpu env j := by
      rcases hvalid with h | ⟨-, h⟩
      · omega
      · exact h
    have hscale := applyRangeAux_scale env v e (e + 1 - s) s
      ((save_original_capacities env st).2) (Nat.le_refl _) i
    rw [hst2]
    show (applyRangeAux env v (e + 1 - s) s e
      ((save_original_capacities env st).2)).2.cpu_scale i = _
    rw [hscale]
    have hsave := (save_original_snd_fields env st).1
    by_cases hin : s ≤ i ∧ i ≤ e
    · rw [if_pos ⟨hin.1, hin.2, hv, fun j hj1 hj2 => hall j hj1 (by omega)⟩,
        if_pos hin]
    · rw [if_neg (fun hx => hin ⟨hx.1, hx.2.1⟩), if_neg hin]
      show ((save_original_capacities env st).2).cpu_scale i = st.cpu_scale i
      rw [hsave]

/-- Witness for C4 at the concrete range write `1-2:7`. -/
theorem c4_witness :
    (capacities_set env8 st0 (some (renderRange 1 2 7))).1 = .ok () ∧
    ((capacities_set env8 st0 (some (renderRange 1 2 7))).2).cpu_scale 1 = 7 := by
  refine ⟨by decide, ?_⟩
  have h := c4_range_set env8 st0 1 2 7 (by decide) (by decide) (by decide) (by decide) 1
  simpa using h

/-- Claim C5, as stated, is false: the range `6-9:100` on an 8-cpu table
fails with `-EINVAL`, but cpus 6 and 7 of the range have already been
written (100 instead of the pristine 1024) when the loop reaches the
invalid cpu 8. -/
theorem c5_counterexample :
    (capacities_set env8 st0 (some c5in)).1 = .error .EINVAL ∧
    ((capacities_set env8 st0 (some c5in)).2).cpu_scale 6 = 100 ∧
    st0.cpu_scale 6 = 1024 :=
  ⟨by decide, by decide, rfl⟩

/-- Claim C5 (amended): application validates per index, not per
assignment — a value above MAX writes nothing and returns `-EINVAL`
before touching the table, while an assignment whose range reaches an
invalid index writes exactly the indices of the range whose whole initial
segment is valid and leaves all other indices unchanged. -/
theorem c5_apply_validates_per_index :
    (∀ (env : Env) (cap cs ce : Nat) (st : State),
      SCHED_CAPACITY_SCALE < cap → cs ≤ ce →
      applyRange env cap cs ce st = (.error .EINVAL, st)) ∧
    (∀ (env : Env) (cap cs ce : Nat) (st : State) (c : Nat),
      ((applyRange env cap cs ce st).2).cpu_scale c =
        if cs ≤ c ∧ c ≤ ce ∧ cap ≤ SCHED_CAPACITY_SCALE ∧
            (∀ j, cs ≤ j → j ≤ c → validCpu env j) then cap
        else st.cpu_scale c) := by
  constructor
  · intro env cap cs ce st h1 h2
    exact applyRange_overCap env cs ce st h1 h2
  · intro env cap cs ce st c
    exact applyRangeAux_scale env cap ce _ cs st (Nat.le_refl _) c

/-- Witness for C5's amended theorem: an over-MAX value aborts with the
state intact. -/
theorem c5_witness :
    SCHED_CAPACITY_SCALE < 2000 ∧
    applyRange env8 2000 0 0 st0 = (.error .EINVAL, st0) :=
  ⟨by decide, c5_apply_validates_per_index.1 env8 2000 0 0 st0 (by decide) (by decide)⟩

/-- Claim C6: a failed `capacities_set` leaves the Canonical String
untouched, so a subsequent read returns exactly what it returned before the
failed call; and a never-configured state reads back as an empty line. -/
theorem c6_failed_set_preserves_canonical :
    (∀ (env : Env) (st : State) (val : Option (List Char)) (e : Err),
      (capacities_set env st val).1 = .error e →
      ((capacities_set env st val).2).capacities_buf = st.capacities_buf ∧
      capacities_get ((capacities_set env st val).2) = capacities_get st) ∧
    (∀ f, capacities_get (initState f) = ['\n']) := by
  constructor
  · intro env st val e herr
    have hbuf : ((capacities_set env st val).2).capacities_buf =
        st.capacities_buf := by
      cases val with
      | none => rfl
      | some v =>
        rcases hq : parse_capacities env st v with ⟨r, st1⟩
        cases r with
        | error e2 =>
          rw [capacities_set_err hq]
          show st1.capacities_buf = st.capacities_buf
          have hb := parse_capacities_buf env st v
          rw [hq] at hb
          exact hb
        | ok u =>
          cases u
          rw [capacities_set_ok hq] at herr
          exact absurd herr (fun hx => Except.noConfusion hx)
    refine ⟨hbuf, ?_⟩
    unfold capacities_get
    rw [hbuf]
  · intro f
    rfl

/-- Witness for C6 at the missing-separator input. -/
theorem c6_witness :
    (capacities_set env8 st0 (some c9inSep)).1 = .error .EINVAL ∧
    capacities_get ((capacities_set env8 st0 (some c9inSep)).2) =
      capacities_get st0 :=
  ⟨by decide,
    (c6_failed_set_preserves_canonical.1 env8 st0 (some c9inSep) .EINVAL (by decide)).2⟩

set_option maxRecDepth 10000 in
/-- Claim C7, as stated, is false: a parseable configuration of 256
characters succeeds, but the read-back is the 255-character truncation, not
the written string modulo a trailing newline. -/
theorem c7_counterexample :
    (capacities_set env8 st0 (some c7in)).1 = .ok () ∧
    capacities_get ((capacities_set env8 st0 (some c7in)).2) ≠
      stripNl c7in ++ ['\n'] :=
  ⟨by decide, by decide⟩

/-- Claim C7 (amended): for every successfully applied string shorter than
the 256-byte canonical buffer, the immediate read-back is the written
string minus one trailing newline, followed by exactly one newline. -/
theorem c7_roundtrip (env : Env) (st : State) (s : List Char)
    (hlen : s.length < MAX_CAPACITIES_LEN)
    (hok : (capacities_set env st (some s)).1 = .ok ()) :
    capacities_get ((capacities_set env st (some s)).2) = stripNl s ++ ['\n'] := by
  rcases hq : parse_capacities env st s with ⟨r, st1⟩
  cases r with
  | error e =>
    rw [capacities_set_err hq] at hok
    exact absurd hok (fun hx => Except.noConfusion hx)
  | ok u =>
    cases u
    rw [capacities_set_ok hq]
    have hbuf : ({ st1 with capacities_buf := s.take (stripLen s) }).capacities_buf =
        stripNl s := by
      show s.take (stripLen s) = stripNl s
      rw [take_stripLen_eq, canonicalOf_short hlen]
    rw [capacities_get_eq _ (by
      rw [hbuf]
      refine Nat.le_trans (stripNl_length_le s) ?_
      norm_num [MAX_CAPACITIES_LEN] at hlen ⊢
      omega)]
    rw [hbuf]

/-- Witness for C7's amended theorem at a short successful write. -/
theorem c7_witness :
    ("0:100".toList).length < MAX_CAPACITIES_LEN ∧
    capacities_get ((capacities_set env8 st0 (some ("0:100".toList))).2) =
      stripNl ("0:100".toList) ++ ['\n'] :=
  ⟨by decide, c7_roundtrip env8 st0 ("0:100".toList) (by decide) (by decide)⟩

/-- Claim C8, as stated, is false: the all-whitespace input consisting of a
single space succeeds and leaves the table alone, but the Canonical String
becomes that very space, not the empty string. -/
theorem c8_counterexample :
    (capacities_set env8 st0 (some c8in)).1 = .ok () ∧
    ((capacities_set env8 st0 (some c8in)).2).capacities_buf = c8in ∧
    c8in ≠ [] :=
  ⟨by decide, by decide, by decide⟩

/-- Claim C8 (amended): an all-whitespace input always succeeds without
touching the Current Table or the Snapshot state, and the Canonical String
becomes the input itself clamped to the buffer and minus one trailing
newline — which is empty exactly for the empty or single-newline inputs. -/
theorem c8_whitespace_noop (env : Env) (st : State) (v : List Char)
    (hws : ∀ c ∈ v, isspace c = true) :
    (capacities_set env st (some v)).1 = .ok () ∧
    ((capacities_set env st (some v)).2).cpu_scale = st.cpu_scale ∧
    ((capacities_set env st (some v)).2).original_saved = st.original_saved ∧
    ((capacities_set env st (some v)).2).original_capacities =
      st.original_capacities ∧
    ((capacities_set env st (some v)).2).capacities_buf = canonicalOf v := by
  have hskip : skipWs v = [] := skipWs_of_all_ws hws
  rw [capacities_set_ok (parse_capacities_empty env st hskip)]
  exact ⟨rfl, rfl, rfl, rfl, take_stripLen_eq v⟩

/-- Witness for C8's amended theorem at the single-space input. -/
theorem c8_witness :
    (∀ c ∈ c8in, isspace c = true) ∧
    ((capacities_set env8 st0 (some c8in)).2).capacities_buf = canonicalOf c8in :=
  ⟨by decide, (c8_whitespace_noop env8 st0 c8in (by decide)).2.2.2.2⟩

/-- Claim C9, as stated, is false: a value above MAX, a missing `:`
separator, and a cpu index beyond the table are three different taxonomy
kinds, yet all three produce the identical result `-EINVAL` — the error
kinds are not pairwise distinguishable in the returned value. -/
theorem c9_counterexample :
    (capacities_set env8 st0 (some c9inVal)).1 = .error .EINVAL ∧
    (capacities_set env8 st0 (some c9inSep)).1 = .error .EINVAL ∧
    (capacities_set env8 st0 (some c9inIdx)).1 = .error .EINVAL ∧
    (capacities_set env8 st0 (some c9inVal)).1 =
      (capacities_set env8 st0 (some c9inSep)).1 ∧
    (capacities_set env8 st0 (some c9inSep)).1 =
      (capacities_set env8 st0 (some c9inIdx)).1 :=
  ⟨by decide, by decide, by decide, by decide, by decide⟩

/-- Claim C9 (amended): the error taxonomy collapses onto errno codes —
ValueTooLarge, ParseError (missing separator) and OutOfRange all surface as
the same `-EINVAL`, and only an overflowing integer literal is
distinguishable from them as `-ERANGE`. -/
theorem c9_error_codes_collapse :
    (capacities_set env8 st0 (some c9inVal)).1 =
      (capacities_set env8 st0 (some c9inSep)).1 ∧
    (capacities_set env8 st0 (some c9inSep)).1 =
      (capacities_set env8 st0 (some c9inIdx)).1 ∧
    (capacities_set env8 st0 (some c9inOvf)).1 = .error .ERANGE ∧
    Err.ERANGE ≠ Err.EINVAL ∧
    capacities_set env8 st0 none = (.error .EINVAL, st0) :=
  ⟨by decide, by decide, by decide, by decide, rfl⟩

/-- Claim C10: writability requires membership in the possible mask, which
is strictly stronger than being below `nr_cpu_ids` when the mask is
sparse — a spec targeting an impossible index below `N` fails with
`-EINVAL` leaving the table as saved, any range covering an invalid index
cannot succeed, and snapshot capture and restore copy only possible
indices. -/
theorem c10_possible_mask :
    (∀ (env : Env) (st : State) (i v : Nat), i < env.nr_cpu_ids →
      env.cpu_possible i = false → v ≤ SCHED_CAPACITY_SCALE →
      capacities_set env st (some (renderSingle i v)) =
        (.error .EINVAL, (save_original_capacities env st).2)) ∧
    (∀ (env : Env) (cap cs ce i : Nat) (st : State), cs ≤ i → i ≤ ce →
      ¬ validCpu env i → (applyRange env cap cs ce st).1 ≠ .ok ()) ∧
    (∀ (env : Env) (st : State), st.original_saved = false → ∀ c, validCpu env c →
      snapshotVal ((save_original_capacities env st).2) c = some (st.cpu_scale c)) ∧
    (∀ (env : Env) (st : State) (f : Nat → Nat), st.original_saved = true →
      st.original_capacities = some f → ∀ c, ¬ validCpu env c →
      (restore_original_capacities env st).cpu_scale c = st.cpu_scale c) := by
  refine ⟨?_, ?_, fun env st h => save_original_snapshotVal env st h, ?_⟩
  · intro env st i v hi hposs hv
    have hi' : i ≤ UINT_MAX := by have := env.nr_le; omega
    have hsc : set_cpu_capacity env ((save_original_capacities env st).2) i v =
        (.error .EINVAL, (save_original_capacities env st).2) := by
      unfold set_cpu_capacity
      rw [if_pos (Or.inr hposs)]
    have happ : applyRange env v i i ((save_original_capacities env st).2) =
        (.error .EINVAL, (save_original_capacities env st).2) := by
      unfold applyRange
      have h1 : i + 1 - i = 1 := by omega
      rw [h1]
      simp only [applyRangeAux]
      rw [if_neg (by omega : ¬ i < i), hsc]
    exact capacities_set_err (by
      rw [parse_capacities_renderSingle env st hi' hv, happ])
  · intro env cap cs ce i st h1 h2 hnv hok
    have hch := (applyRangeAux_fst env cap ce (ce + 1 - cs) cs st
      (Nat.le_refl _)).mp hok
    rcases hch with h | ⟨-, hall⟩
    · omega
    · exact hnv (hall i h1 h2)
  · intro env st f hs ho c hnc
    rw [restore_saved hs ho]
    show copyOn (possibleList env) f st.cpu_scale c = st.cpu_scale c
    rw [copyOn_eval, if_neg (fun hm => hnc (mem_possibleList.mp hm))]

/-- Witness for C10 on the sparse environment whose mask skips cpu 3. -/
theorem c10_witness :
    envSparse.cpu_possible 3 = false ∧ 3 < envSparse.nr_cpu_ids ∧
    capacities_set envSparse st0 (some (renderSingle 3 100)) =
      (.error .EINVAL, (save_original_capacities envSparse st0).2) :=
  ⟨rfl, by decide, c10_possible_mask.1 envSparse st0 3 100 (by decide) rfl (by decide)⟩


end CpuCap
